import Mathlib

/-!
Shallow embedding of the RRT planner in `rrt_csa_anim.py` (class `RRT`).

Coordinates are elements of a linear ordered field `α` (instantiated at `ℚ`
for executable witnesses and at `ℝ` for the metric facts).  The calls into
the Python `math` library (`sqrt`, `hypot`, `cos`, `sin`, `atan2`) are kept
abstract in a `Geom` record of function parameters; theorems that need their
analytic properties take those properties as hypotheses and are instantiated
at the real functions in their witnesses.

Mutable state is passed explicitly: the mutable planner fields
(`node_list`, `SamplingRadius`) form `PState`; the stream of values drawn
from the `random` module is an explicit input (`RInput`, one per loop
iteration).  A Python node object is immutable once appended to the tree, so
`parent` references are modelled by the inductive parent chain itself.
-/

namespace RRTDemo

/-- The calls into the Python `math` module, kept abstract.  `atan2 dy dx`
follows the argument order of `math.atan2`. -/
structure Geom (α : Type) where
  sqrt : α → α
  hypot : α → α → α
  cos : α → α
  sin : α → α
  atan2 : α → α → α

/-- An RRT tree node (`RRT.Node`): position `(x, y)`, the recorded fine path
`path_x`/`path_y` from its parent, and the parent back-reference (`none` for
the root).  Nodes are immutable after construction, so the Python reference
to the parent object is the parent value itself. -/
inductive Node (α : Type) : Type where
  | mk (x y : α) (path_x path_y : List α) (parent : Option (Node α)) : Node α

/-- Field `self.x`. -/
def Node.x {α : Type} : Node α → α
  | .mk x _ _ _ _ => x

/-- Field `self.y`. -/
def Node.y {α : Type} : Node α → α
  | .mk _ y _ _ _ => y

/-- Field `self.path_x`. -/
def Node.path_x {α : Type} : Node α → List α
  | .mk _ _ px _ _ => px

/-- Field `self.path_y`. -/
def Node.path_y {α : Type} : Node α → List α
  | .mk _ _ _ py _ => py

/-- Field `self.parent`. -/
def Node.parent {α : Type} : Node α → Option (Node α)
  | .mk _ _ _ _ p => p

variable {α : Type} [LinearOrderedField α] [FloorRing α]

/-- Function `EuclideanDistanceOfNodes(start, end)`:
`math.sqrt(((end.y-start.y)**2)+((end.x-start.x)**2))`. -/
def EuclideanDistanceOfNodes (g : Geom α) (start finish : Node α) : α :=
  g.sqrt ((finish.y - start.y) ^ 2 + (finish.x - start.x) ^ 2)

/-- Static method `RRT.calc_distance_and_angle(from_node, to_node)`:
`d = math.hypot(dx, dy)`, `theta = math.atan2(dy, dx)`. -/
def calc_distance_and_angle (g : Geom α) (from_node to_node : Node α) : α × α :=
  let dx := to_node.x - from_node.x
  let dy := to_node.y - from_node.y
  (g.hypot dx dy, g.atan2 dy dx)

/-- The Python builtin `min` over a list, written for a nonempty list `x :: xs`; the
`[]` branch is junk (Python raises `ValueError` there) and is never reached
in the program, where every recorded path is nonempty. -/
def pyMin : List α → α
  | [] => 0
  | x :: xs => xs.foldl min x

/-- Static method `RRT.check_collision(node, obstacleList)` with the module
global `InflationRadius` passed explicitly.  An obstacle is `(ox, oy, size)`.
Returns `false` (collision) when `node` is `None`, or when for some obstacle
the minimum of the squared distances from the obstacle centre to the points
of the recorded path of the node is `≤ (size + inflation)^2`. -/
def check_collision (inflation : α) (node : Option (Node α))
    (obstacleList : List (α × α × α)) : Bool :=
  match node with
  | none => false
  | some n =>
    obstacleList.all fun ob =>
      let dx_list := n.path_x.map fun x => ob.1 - x
      let dy_list := n.path_y.map fun y => ob.2.1 - y
      let d_list := (dx_list.zip dy_list).map fun dz => dz.1 * dz.1 + dz.2 * dz.2
      !(pyMin d_list ≤ (ob.2.2 + inflation) ^ 2)

/-- Squared Euclidean distance from the query node `rnd_node` to a tree node,
the expression of the list comprehension in `get_nearest_node_index`. -/
def sqDistTo (rnd_node node : Node α) : α :=
  (node.x - rnd_node.x) ^ 2 + (node.y - rnd_node.y) ^ 2

/-- Static method `RRT.get_nearest_node_index(node_list, rnd_node)`:
builds the list of squared distances and returns `dlist.index(min(dlist))`,
the first index of the minimum. -/
def get_nearest_node_index (node_list : List (Node α)) (rnd_node : Node α) : ℕ :=
  let dlist := node_list.map fun node => sqDistTo rnd_node node
  dlist.findIdx fun d => decide (d = pyMin dlist)

/-- Method `RRT.calc_dist_to_goal(x, y)`: `math.hypot(x - end.x, y - end.y)`. -/
def calc_dist_to_goal (g : Geom α) (endNode : Node α) (x y : α) : α :=
  g.hypot (x - endNode.x) (y - endNode.y)

/-- The values one iteration draws from the `random` module:
`draw = random.randint(0, 100)` and the two `random.uniform(min_rand,
max_rand)` coordinates (used only when the uniform branch is taken). -/
structure RInput (α : Type) where
  draw : ℕ
  ux : α
  uy : α

/-- Method `RRT.get_random_node()` with the module global `GoalBiased` and the
field `goal_sample_rate` passed explicitly and the random draws supplied in
`inp`.  The goal branch is taken when `draw > goal_sample_rate` fails. -/
def get_random_node (goalBiased : Bool) (goal_sample_rate : ℕ) (endNode : Node α)
    (inp : RInput α) : Node α :=
  if goalBiased then
    if inp.draw > goal_sample_rate then .mk inp.ux inp.uy [] [] none
    else .mk endNode.x endNode.y [] [] none
  else .mk inp.ux inp.uy [] [] none

/-- State of the `for` loop body of `RRT.steer`: current position and the
accumulated `path_x`/`path_y` lists. -/
structure SteerSt (α : Type) where
  x : α
  y : α
  px : List α
  py : List α

/-- The `for _ in range(n_expand)` loop of `RRT.steer`: each iteration moves
by `path_resolution` along `theta` and appends the new position to the path
lists. -/
def steerRun (res cosθ sinθ : α) : ℕ → SteerSt α → SteerSt α
  | 0, st => st
  | n + 1, st =>
    let x' := st.x + res * cosθ
    let y' := st.y + res * sinθ
    steerRun res cosθ sinθ n ⟨x', y', st.px ++ [x'], st.py ++ [y']⟩

/-- Method `RRT.steer(from_node, to_node, extend_length)` with the field
`path_resolution` passed explicitly.  The new node starts at the position of `from_node` with a one-point path, advances `floor(extend/res)` increments of
`path_resolution` along `theta`, then snaps `to_node` onto the end of the
path when the remaining distance is `≤ path_resolution`. -/
def steer (g : Geom α) (path_resolution : α) (from_node to_node : Node α)
    (extend_length : α) : Node α :=
  let da := calc_distance_and_angle g from_node to_node
  let d := da.1
  let theta := da.2
  let el := if extend_length > d then d else extend_length
  let n_expand := (⌊el / path_resolution⌋).toNat
  let st := steerRun path_resolution (g.cos theta) (g.sin theta) n_expand
    ⟨from_node.x, from_node.y, [from_node.x], [from_node.y]⟩
  let d2 := g.hypot (to_node.x - st.x) (to_node.y - st.y)
  let px := if d2 ≤ path_resolution then st.px ++ [to_node.x] else st.px
  let py := if d2 ≤ path_resolution then st.py ++ [to_node.y] else st.py
  .mk st.x st.y px py (some from_node)

/-- The `while node.parent is not None` walk of `RRT.generate_final_course`:
the positions along the parent chain, ending with the position of the root. -/
def walkCourse {α : Type} : Node α → List (α × α)
  | .mk x y _ _ none => [(x, y)]
  | .mk x y _ _ (some p) => (x, y) :: walkCourse p

/-- Method `RRT.generate_final_course(goal_ind)`: the goal position followed
by the positions along the parent chain from `node_list[goal_ind]` down to
the root.  The out-of-range default is junk (Python would raise). -/
def generate_final_course (endNode : Node α) (node_list : List (Node α))
    (goal_ind : ℕ) : List (α × α) :=
  (endNode.x, endNode.y) :: walkCourse (node_list.getD goal_ind endNode)

/-- The constructor parameters of `RRT.__init__` together with the two module
globals the planner reads (`GoalBiased`, `InflationRadius`) and the two
constants set in `__init__` (`ExpansionCoeff = 2`, `ExpansionEps = 0.3`).
`min_rand`/`max_rand` bound the uniform draws supplied in `RInput`. -/
structure RRTCfg (α : Type) where
  sx : α
  sy : α
  gx : α
  gy : α
  min_rand : α
  max_rand : α
  expand_dis : α
  path_resolution : α
  goal_sample_rate : ℕ
  max_iter : ℕ
  obstacle_list : List (α × α × α)
  goalBiased : Bool
  inflationRadius : α
  ExpansionCoeff : α
  ExpansionEps : α

/-- Field `self.start`: `Node(start[0], start[1])`. -/
def startNode (cfg : RRTCfg α) : Node α := .mk cfg.sx cfg.sy [] [] none

/-- Field `self.end`: `Node(goal[0], goal[1])`. -/
def endNode (cfg : RRTCfg α) : Node α := .mk cfg.gx cfg.gy [] [] none

/-- The mutable planner state during `RRT.planning`: `self.node_list` and
`self.SamplingRadius`. -/
structure PState (α : Type) where
  node_list : List (Node α)
  SamplingRadius : α

/-- The state at the top of the loop: `node_list = [start]` (set by
`planning`) and `SamplingRadius = EuclideanDistanceOfNodes(start, end)` (set
by `__init__`). -/
def initState (g : Geom α) (cfg : RRTCfg α) : PState α :=
  ⟨[startNode cfg], EuclideanDistanceOfNodes g (startNode cfg) (endNode cfg)⟩

/-- One iteration of the loop body of `RRT.planning` (drawing and animation
omitted: the random draws come in `inp`, and `draw_graph` reads but never
writes planner state).  `Sum.inl` carries the state at the next iteration;
`Sum.inr` carries the final state and the returned path when the iteration
hits `return self.generate_final_course(len(self.node_list) - 1)`. -/
def planStep (g : Geom α) (cfg : RRTCfg α) (s : PState α) (inp : RInput α) :
    PState α ⊕ (PState α × List (α × α)) :=
  let rnd_node := get_random_node cfg.goalBiased cfg.goal_sample_rate (endNode cfg) inp
  if EuclideanDistanceOfNodes g (endNode cfg) rnd_node > s.SamplingRadius then .inl s
  else
    let nearest_ind := get_nearest_node_index s.node_list rnd_node
    let nearest_node := s.node_list.getD nearest_ind (startNode cfg)
    let new_node := steer g cfg.path_resolution nearest_node rnd_node cfg.expand_dis
    if check_collision cfg.inflationRadius (some new_node) cfg.obstacle_list then
      let nodes' := s.node_list ++ [new_node]
      let s' : PState α := ⟨nodes', EuclideanDistanceOfNodes g new_node (endNode cfg)⟩
      let last := nodes'.getLastD (startNode cfg)
      if calc_dist_to_goal g (endNode cfg) last.x last.y ≤ cfg.expand_dis then
        let final_node := steer g cfg.path_resolution last (endNode cfg) cfg.expand_dis
        if check_collision cfg.inflationRadius (some final_node) cfg.obstacle_list then
          .inr (s', generate_final_course (endNode cfg) nodes' (nodes'.length - 1))
        else .inl s'
      else .inl s'
    else .inl ⟨s.node_list, s.SamplingRadius + cfg.ExpansionCoeff * cfg.ExpansionEps⟩

/-- The `for i in range(self.max_iter)` loop of `RRT.planning` over an
explicit list of random inputs, one per iteration: `none` when the loop runs
out of iterations (`return None  # cannot find path`). -/
def planningAux (g : Geom α) (cfg : RRTCfg α) : PState α → List (RInput α) →
    Option (List (α × α))
  | _, [] => none
  | s, inp :: rest =>
    match planStep g cfg s inp with
    | .inl s' => planningAux g cfg s' rest
    | .inr (_, path) => some path

/-- Method `RRT.planning`: runs the loop from the initial state for
`max_iter` iterations, the `i`-th iteration consuming the draws `rnd i`. -/
def planning (g : Geom α) (cfg : RRTCfg α) (rnd : ℕ → RInput α) :
    Option (List (α × α)) :=
  planningAux g cfg (initState g cfg) ((List.range cfg.max_iter).map rnd)

/-- The loop viewed through its state: `some s` is the planner state after
consuming all inputs without returning a path, `none` means some iteration
returned a path. -/
def runState (g : Geom α) (cfg : RRTCfg α) : PState α → List (RInput α) →
    Option (PState α)
  | s, [] => some s
  | s, inp :: rest =>
    match planStep g cfg s inp with
    | .inl s' => runState g cfg s' rest
    | .inr _ => none

/-- The planner state after the loop, successful return included: on success
the remaining inputs are not consumed, matching the `return` statement. -/
def runStateFull (g : Geom α) (cfg : RRTCfg α) : PState α → List (RInput α) →
    PState α
  | s, [] => s
  | s, inp :: rest =>
    match planStep g cfg s inp with
    | .inl s' => runStateFull g cfg s' rest
    | .inr (s', _) => s'

/-- State reached by a step, for the append-only property: the next state in
either branch of `planStep`. -/
def postState : PState α ⊕ (PState α × List (α × α)) → PState α
  | .inl s => s
  | .inr (s, _) => s

/-- Root of the parent chain of a node (the tree node every parent walk ends at). -/
def chainRoot {α : Type} : Node α → Node α
  | .mk x y px py none => .mk x y px py none
  | .mk _ _ _ _ (some p) => chainRoot p

/-- The tree invariant of the node list: the element at index 0 is the start
node, it is the only node without a parent, and the parent of every later
node is a node that was already in the list when the node was appended. -/
def TreeInv (cfg : RRTCfg α) (nodes : List (Node α)) : Prop :=
  nodes.head? = some (startNode cfg) ∧
  (∀ i : ℕ, ∀ h : i < nodes.length, (nodes[i].parent = none ↔ i = 0)) ∧
  (∀ i : ℕ, ∀ h : i < nodes.length, 0 < i →
    ∃ p, nodes[i].parent = some p ∧ p ∈ nodes.take i)

/-- Condition for one iteration to take the collision branch of the loop: the
sample is inside the sampling radius and the steered node fails
`check_collision`. -/
def collideB (g : Geom α) (cfg : RRTCfg α) (s : PState α) (inp : RInput α) : Bool :=
  let rnd_node := get_random_node cfg.goalBiased cfg.goal_sample_rate (endNode cfg) inp
  !decide (EuclideanDistanceOfNodes g (endNode cfg) rnd_node > s.SamplingRadius) &&
  !(check_collision cfg.inflationRadius
      (some (steer g cfg.path_resolution
        (s.node_list.getD (get_nearest_node_index s.node_list rnd_node) (startNode cfg))
        rnd_node cfg.expand_dis))
      cfg.obstacle_list)

/-- Condition for every one of the next `l.length` iterations to take the
collision branch, each judged at the state the previous iterations produce. -/
def allCollidingB (g : Geom α) (cfg : RRTCfg α) : PState α → List (RInput α) → Bool
  | _, [] => true
  | s, inp :: rest =>
    collideB g cfg s inp &&
      allCollidingB g cfg
        ⟨s.node_list, s.SamplingRadius + cfg.ExpansionCoeff * cfg.ExpansionEps⟩ rest

/-- Concrete geometry over `ℚ` for witnesses whose runs never consume a
nonzero `sqrt`, `hypot`, `cos` or `sin` value: each call returns the value the
real function returns at the one point the run evaluates it (the origin). -/
def gQ : Geom ℚ := ⟨fun _ => 0, fun _ _ => 0, fun _ => 1, fun _ => 0, fun _ _ => 0⟩

/-- Concrete geometry over `ℚ` whose `sqrt` is the identity, for witnesses
that only compare distances with thresholds monotonically. -/
def gIdQ : Geom ℚ := ⟨fun x => x, fun _ _ => 0, fun _ => 1, fun _ => 0, fun _ _ => 0⟩

/-- Concrete configuration over `ℚ` for witnesses: start `(0, 0)`, goal
`(1, 0)`, the default tuning values of the source, one iteration, no
obstacles. -/
def cfgQ : RRTCfg ℚ :=
  { sx := 0, sy := 0, gx := 1, gy := 0, min_rand := -15, max_rand := 15,
    expand_dis := 4/5, path_resolution := 1/5, goal_sample_rate := 5,
    max_iter := 1, obstacle_list := [], goalBiased := true,
    inflationRadius := 4/5, ExpansionCoeff := 2, ExpansionEps := 3/10 }

/-- Configuration `cfgQ` with one obstacle of radius 1 at the origin, so a
steer that stays at the origin collides. -/
def cfgObsQ : RRTCfg ℚ := { cfgQ with obstacle_list := [(0, 0, 1)] }

/-- Concrete node list over `ℚ` with two nodes at the same position, for the
tie-breaking witness of the nearest-node lookup. -/
def nlQ : List (Node ℚ) := [.mk 1 0 [] [] none, .mk 1 0 [] [] none]

/-- Concrete query node over `ℚ`. -/
def rndQ : Node ℚ := .mk 0 0 [] [] none

/-- Concrete node over `ℚ` for the zero-distance steer witness. -/
def nodeA : Node ℚ := .mk 2 3 [] [] none

/-- Concrete node over `ℚ` with a one-point recorded path at the origin. -/
def pathNodeQ : Node ℚ := .mk 0 0 [0] [0] none

/-- Concrete goal node over `ℤ` for the sampler counting argument (the draw
logic of the sampler uses no field arithmetic, so `ℤ` coordinates serve). -/
def eZ : Node ℤ := .mk 1 2 [] [] none

/-! ### Lemmas on the Python list minimum -/

lemma foldl_min_le_arg (xs : List α) (x : α) : xs.foldl min x ≤ x := by
  induction xs generalizing x with
  | nil => exact le_refl x
  | cons b xs ih => exact le_trans (ih (min x b)) (min_le_left x b)

lemma foldl_min_le_mem (xs : List α) (x a : α) (ha : a ∈ xs) : xs.foldl min x ≤ a := by
  induction xs generalizing x with
  | nil => cases ha
  | cons b xs ih =>
    rcases List.mem_cons.mp ha with rfl | h
    · exact le_trans (foldl_min_le_arg xs (min x a)) (min_le_right x a)
    · exact ih (min x b) h

lemma foldl_min_mem (xs : List α) (x : α) : xs.foldl min x = x ∨ xs.foldl min x ∈ xs := by
  induction xs generalizing x with
  | nil => exact Or.inl rfl
  | cons b xs ih =>
    rcases ih (min x b) with h | h
    · rcases min_choice x b with hm | hm
      · exact Or.inl (by rw [List.foldl_cons, h, hm])
      · exact Or.inr (by rw [List.foldl_cons, h, hm]; exact List.mem_cons_self b xs)
    · exact Or.inr (List.mem_cons_of_mem b h)

lemma pyMin_le {l : List α} {a : α} (ha : a ∈ l) : pyMin l ≤ a := by
  cases l with
  | nil => cases ha
  | cons x xs =>
    rcases List.mem_cons.mp ha with rfl | h
    · exact foldl_min_le_arg xs a
    · exact foldl_min_le_mem xs x a h

lemma pyMin_mem {l : List α} (h : l ≠ []) : pyMin l ∈ l := by
  cases l with
  | nil => exact absurd rfl h
  | cons x xs =>
    show xs.foldl min x ∈ x :: xs
    rcases foldl_min_mem xs x with h' | h'
    · rw [h']; exact List.mem_cons_self x xs
    · exact List.mem_cons_of_mem x h'

lemma lt_pyMin_iff {l : List α} (h : l ≠ []) (c : α) :
    c < pyMin l ↔ ∀ a ∈ l, c < a :=
  ⟨fun hc a ha => lt_of_lt_of_le hc (pyMin_le ha), fun ha => ha _ (pyMin_mem h)⟩

/-- C2: for a node with a nonempty recorded path, `check_collision` reports
the node collision-free exactly when, for every obstacle, every point of the
recorded path is at squared distance strictly greater than
`(size + inflation)^2` from the obstacle centre — equivalently, the minimum
squared distance exceeds that bound; and a `None` node is never
collision-free. -/
theorem check_collision_free_iff (inflation : α) (n : Node α) (obs : List (α × α × α))
    (hx : n.path_x ≠ []) (hy : n.path_y ≠ []) :
    (check_collision inflation (some n) obs = true ↔
      ∀ ob ∈ obs, ∀ pt ∈ n.path_x.zip n.path_y,
        (ob.2.2 + inflation) ^ 2 < (ob.1 - pt.1) ^ 2 + (ob.2.1 - pt.2) ^ 2) ∧
    check_collision inflation (none : Option (Node α)) obs = false := by
  refine ⟨?_, rfl⟩
  simp only [check_collision, List.all_eq_true, Bool.not_eq_true',
    decide_eq_false_iff_not, not_le]
  refine forall₂_congr fun ob hob => ?_
  have hzip : n.path_x.zip n.path_y ≠ [] := by
    intro hz
    rcases List.zip_eq_nil_iff.mp hz with h | h
    · exact hx h
    · exact hy h
  have hne :
      ((n.path_x.map fun x => ob.1 - x).zip (n.path_y.map fun y => ob.2.1 - y)).map
        (fun dz => dz.1 * dz.1 + dz.2 * dz.2) ≠ [] := by
    rw [List.zip_map, List.map_map]
    simpa using hzip
  rw [lt_pyMin_iff hne, List.zip_map, List.map_map]
  rw [List.forall_mem_map]
  refine forall₂_congr fun pt hpt => ?_
  simp only [Function.comp, Prod.map]
  ring_nf

/-! ### Lemmas on the nearest-node lookup -/

lemma get_nearest_node_index_lt_length (node_list : List (Node α)) (rnd_node : Node α)
    (h : node_list ≠ []) :
    get_nearest_node_index node_list rnd_node < node_list.length := by
  have hm : pyMin (node_list.map fun node => sqDistTo rnd_node node) ∈
      node_list.map fun node => sqDistTo rnd_node node :=
    pyMin_mem (by simpa using h)
  have hlt := @List.findIdx_lt_length_of_exists _
    (fun d => decide (d = pyMin (node_list.map fun node => sqDistTo rnd_node node)))
    (node_list.map fun node => sqDistTo rnd_node node)
    ⟨_, hm, by simp⟩
  simpa [get_nearest_node_index] using hlt

lemma get_nearest_node_index_val (node_list : List (Node α)) (rnd_node : Node α)
    (h : node_list ≠ []) :
    sqDistTo rnd_node (node_list.getD (get_nearest_node_index node_list rnd_node) rnd_node)
      = pyMin (node_list.map fun node => sqDistTo rnd_node node) := by
  have hlt := get_nearest_node_index_lt_length node_list rnd_node h
  have hlt' : (node_list.map fun node => sqDistTo rnd_node node).findIdx
      (fun d => decide (d = pyMin (node_list.map fun node => sqDistTo rnd_node node))) <
      (node_list.map fun node => sqDistTo rnd_node node).length := by
    simpa [get_nearest_node_index] using hlt
  have hp := @List.findIdx_getElem _
    (fun d => decide (d = pyMin (node_list.map fun node => sqDistTo rnd_node node)))
    (node_list.map fun node => sqDistTo rnd_node node) hlt'
  simp only [List.getElem_map, decide_eq_true_eq] at hp
  rw [List.getD_eq_getElem node_list rnd_node hlt]
  exact hp

/-- C2 witness: a one-point path at the origin against one obstacle far away,
and the `None` case, at inflation radius 1. -/
theorem check_collision_free_iff_witness :
    (check_collision (1 : ℚ) (some pathNodeQ) [(3, 4, 1)] = true ↔
      ∀ ob ∈ [((3 : ℚ), (4 : ℚ), (1 : ℚ))], ∀ pt ∈ pathNodeQ.path_x.zip pathNodeQ.path_y,
        (ob.2.2 + 1) ^ 2 < (ob.1 - pt.1) ^ 2 + (ob.2.1 - pt.2) ^ 2) ∧
    check_collision (1 : ℚ) (none : Option (Node ℚ)) [(3, 4, 1)] = false :=
  check_collision_free_iff 1 pathNodeQ [(3, 4, 1)]
    (by simp [pathNodeQ, Node.path_x]) (by simp [pathNodeQ, Node.path_y])

/-- C6: over a nonempty node list, `get_nearest_node_index` returns an index
in range whose node attains the minimum squared distance to the query point,
and any index attaining the minimum is at least the returned one. -/
theorem get_nearest_node_index_spec (node_list : List (Node α)) (rnd_node : Node α)
    (h : node_list ≠ []) :
    get_nearest_node_index node_list rnd_node < node_list.length ∧
    (∀ j : ℕ, j < node_list.length →
      sqDistTo rnd_node (node_list.getD (get_nearest_node_index node_list rnd_node) rnd_node)
        ≤ sqDistTo rnd_node (node_list.getD j rnd_node)) ∧
    (∀ j : ℕ, j < node_list.length →
      sqDistTo rnd_node (node_list.getD j rnd_node)
          ≤ sqDistTo rnd_node (node_list.getD (get_nearest_node_index node_list rnd_node) rnd_node) →
      get_nearest_node_index node_list rnd_node ≤ j) := by
  have hlt := get_nearest_node_index_lt_length node_list rnd_node h
  have hval := get_nearest_node_index_val node_list rnd_node h
  refine ⟨hlt, ?_, ?_⟩
  · intro j hj
    rw [hval, List.getD_eq_getElem node_list rnd_node hj]
    exact pyMin_le (List.mem_map_of_mem _ (List.getElem_mem hj))
  · intro j hj hle
    rw [List.getD_eq_getElem node_list rnd_node hj, hval] at hle
    have hmem : sqDistTo rnd_node node_list[j] ∈
        node_list.map fun node => sqDistTo rnd_node node :=
      List.mem_map_of_mem _ (List.getElem_mem hj)
    have heq : sqDistTo rnd_node node_list[j] =
        pyMin (node_list.map fun node => sqDistTo rnd_node node) :=
      le_antisymm hle (pyMin_le hmem)
    by_contra hcon
    push_neg at hcon
    have hcon' : j < (node_list.map fun node => sqDistTo rnd_node node).findIdx
        fun d => decide (d = pyMin (node_list.map fun node => sqDistTo rnd_node node)) := by
      simpa [get_nearest_node_index] using hcon
    have hfalse := List.not_of_lt_findIdx hcon'
    simp only [List.getElem_map, decide_eq_false_iff_not] at hfalse
    exact hfalse heq

/-- C6 witness: two nodes at the same position (a tie) and a query at the
origin; the returned index is 0. -/
theorem get_nearest_node_index_spec_witness :
    get_nearest_node_index nlQ rndQ < nlQ.length ∧
    (∀ j : ℕ, j < nlQ.length →
      sqDistTo rndQ (nlQ.getD (get_nearest_node_index nlQ rndQ) rndQ)
        ≤ sqDistTo rndQ (nlQ.getD j rndQ)) ∧
    (∀ j : ℕ, j < nlQ.length →
      sqDistTo rndQ (nlQ.getD j rndQ)
          ≤ sqDistTo rndQ (nlQ.getD (get_nearest_node_index nlQ rndQ) rndQ) →
      get_nearest_node_index nlQ rndQ ≤ j) :=
  get_nearest_node_index_spec nlQ rndQ (by simp [nlQ])

/-- C4 counterexample: at `goal_sample_rate = 5` the number of draw outcomes
in `[0, 100]` on which the sampler returns the goal coordinates is not 5 (it
is 6, because `random.randint(0, 100)` is inclusive and the goal branch is
taken for every draw `≤ 5`). -/
theorem get_random_node_goal_bias_cex :
    ¬ (((Finset.range 101).filter fun d =>
        ((get_random_node true 5 eZ ⟨d, 7, 7⟩).x,
          (get_random_node true 5 eZ ⟨d, 7, 7⟩).y) = (eZ.x, eZ.y)).card = 5) := by
  decide

/-- C4 amended: for `goal_sample_rate ≤ 100`, exactly `goal_sample_rate + 1`
of the 101 equally likely draw outcomes in `[0, 100]` make the sampler return
the goal coordinates (probability `(rate+1)/101`, not `rate/100`); on every
other draw it returns the node built from the two uniform coordinates. -/
theorem get_random_node_goal_bias {β : Type} [DecidableEq β] (rate : ℕ) (hrate : rate ≤ 100)
    (e : Node β) (ux uy : β) (hne : (ux, uy) ≠ (e.x, e.y)) :
    (((Finset.range 101).filter fun d =>
        ((get_random_node true rate e ⟨d, ux, uy⟩).x,
          (get_random_node true rate e ⟨d, ux, uy⟩).y) = (e.x, e.y)).card = rate + 1) ∧
    (∀ d : ℕ, rate < d →
      get_random_node true rate e ⟨d, ux, uy⟩ = Node.mk ux uy [] [] none) ∧
    (∀ d : ℕ, d ≤ rate →
      get_random_node true rate e ⟨d, ux, uy⟩ = Node.mk e.x e.y [] [] none) := by
  refine ⟨?_, ?_, ?_⟩
  · have hfilter : ((Finset.range 101).filter fun d =>
        ((get_random_node true rate e ⟨d, ux, uy⟩).x,
          (get_random_node true rate e ⟨d, ux, uy⟩).y) = (e.x, e.y)) =
        (Finset.range 101).filter fun d => d ≤ rate := by
      apply Finset.filter_congr
      intro d _
      by_cases hgt : rate < d
      · simp only [get_random_node, if_pos rfl, if_pos hgt, Node.x, Node.y]
        constructor
        · intro hx
          exact absurd hx hne
        · intro hx
          omega
      · simp only [get_random_node, if_pos rfl, if_neg hgt, Node.x, Node.y]
        constructor
        · intro _
          omega
        · intro _
          rfl
    rw [hfilter]
    have hr : (Finset.range 101).filter (fun d => d ≤ rate) = Finset.range (rate + 1) := by
      ext a
      simp only [Finset.mem_filter, Finset.mem_range]
      omega
    rw [hr, Finset.card_range]
  · intro d hd
    simp [get_random_node, hd]
  · intro d hd
    simp [get_random_node, Nat.not_lt.mpr hd]

/-- C4 witness: the amended count at rate 5 over `ℤ` coordinates. -/
theorem get_random_node_goal_bias_witness :
    (((Finset.range 101).filter fun d =>
        ((get_random_node true 5 eZ ⟨d, 7, 7⟩).x,
          (get_random_node true 5 eZ ⟨d, 7, 7⟩).y) = (eZ.x, eZ.y)).card = 5 + 1) ∧
    (∀ d : ℕ, 5 < d →
      get_random_node true 5 eZ ⟨d, 7, 7⟩ = Node.mk 7 7 [] [] none) ∧
    (∀ d : ℕ, d ≤ 5 →
      get_random_node true 5 eZ ⟨d, 7, 7⟩ = Node.mk eZ.x eZ.y [] [] none) :=
  get_random_node_goal_bias 5 (by decide) eZ 7 7 (by decide)

/-- C5 counterexample: a zero-distance steer records two points, not one (the
snap-to-target branch fires, since the remaining distance 0 is `≤`
`path_resolution`). -/
theorem steer_single_point_cex :
    ¬ (((steer gQ (1/5 : ℚ) nodeA nodeA 1).path_x.zip
        (steer gQ (1/5 : ℚ) nodeA nodeA 1).path_y).length = 1) := by
  norm_num [steer, gQ, nodeA, calc_distance_and_angle, steerRun,
    Node.x, Node.y, Node.path_x, Node.path_y]

/-- C5 amended: for any nonnegative extension bound and positive path
resolution, the zero-distance steer returns a node at the position of `a`
whose recorded path has exactly two points, both equal to the position of
`a`, with parent `a`. -/
theorem steer_self (g : Geom α) (a : Node α) (L res : α) (hL : 0 ≤ L) (hres : 0 < res)
    (h0 : g.hypot 0 0 = 0) :
    steer g res a a L = Node.mk a.x a.y [a.x, a.x] [a.y, a.y] (some a) := by
  have hda : calc_distance_and_angle g a a = (g.hypot 0 0, g.atan2 0 0) := by
    simp [calc_distance_and_angle]
  have hel : (if L > (0 : α) then (0 : α) else L) = 0 := by
    split_ifs with h
    · rfl
    · linarith
  simp only [steer, hda, h0, hel, zero_div, Int.floor_zero, Int.toNat_zero, steerRun,
    sub_self, if_pos hres.le, List.singleton_append]

/-- C5 witness: the amended zero-distance steer at a concrete node over `ℚ`. -/
theorem steer_self_witness :
    steer gQ (1/5 : ℚ) nodeA nodeA 1 =
      Node.mk nodeA.x nodeA.y [nodeA.x, nodeA.x] [nodeA.y, nodeA.y] (some nodeA) :=
  steer_self gQ nodeA 1 (1/5) (by norm_num) (by norm_num) rfl

/-! ### The collision branch of the planning loop -/

lemma planStep_collides (g : Geom α) (cfg : RRTCfg α) (s : PState α) (inp : RInput α)
    (h : collideB g cfg s inp = true) :
    planStep g cfg s inp =
      .inl ⟨s.node_list, s.SamplingRadius + cfg.ExpansionCoeff * cfg.ExpansionEps⟩ := by
  simp only [collideB, Bool.and_eq_true, Bool.not_eq_true', decide_eq_false_iff_not] at h
  obtain ⟨h1, h2⟩ := h
  simp only [planStep, if_neg h1, h2, Bool.false_eq_true, if_false]

/-- C3: when each of the next `l.length` iterations steers into a collision,
the loop leaves the node list unchanged and grows the sampling radius by
exactly `l.length * (ExpansionCoeff * ExpansionEps)`, whatever the sampled
positions were. -/
theorem sampling_radius_growth (g : Geom α) (cfg : RRTCfg α) (s : PState α)
    (l : List (RInput α)) (h : allCollidingB g cfg s l = true) :
    runState g cfg s l =
      some ⟨s.node_list,
        s.SamplingRadius + l.length * (cfg.ExpansionCoeff * cfg.ExpansionEps)⟩ := by
  induction l generalizing s with
  | nil =>
    simp only [runState, List.length_nil, Nat.cast_zero, zero_mul, add_zero]
  | cons i r ih =>
    rw [allCollidingB, Bool.and_eq_true] at h
    obtain ⟨h1, h2⟩ := h
    rw [runState, planStep_collides g cfg s i h1]
    have harith : s.SamplingRadius + cfg.ExpansionCoeff * cfg.ExpansionEps +
        (r.length : α) * (cfg.ExpansionCoeff * cfg.ExpansionEps) =
        s.SamplingRadius + ((i :: r).length : α) * (cfg.ExpansionCoeff * cfg.ExpansionEps) := by
      push_cast [List.length_cons]
      ring
    show runState g cfg
        ⟨s.node_list, s.SamplingRadius + cfg.ExpansionCoeff * cfg.ExpansionEps⟩ r = _
    rw [ih ⟨s.node_list, s.SamplingRadius + cfg.ExpansionCoeff * cfg.ExpansionEps⟩ h2, harith]

/-- C3 witness: two consecutive colliding iterations from radius 5 grow the
radius to `5 + 2 * (2 * 0.3)`. -/
theorem sampling_radius_growth_witness :
    runState gQ cfgObsQ ⟨[startNode cfgObsQ], 5⟩
        [(⟨7, 0, 0⟩ : RInput ℚ), ⟨7, 0, 0⟩] =
      some ⟨[startNode cfgObsQ],
        (5 : ℚ) + (([(⟨7, 0, 0⟩ : RInput ℚ), ⟨7, 0, 0⟩].length : ℚ)) *
          (cfgObsQ.ExpansionCoeff * cfgObsQ.ExpansionEps)⟩ :=
  sampling_radius_growth gQ cfgObsQ ⟨[startNode cfgObsQ], 5⟩ _
    (by norm_num [allCollidingB, collideB, gQ, cfgObsQ, cfgQ, get_random_node,
      EuclideanDistanceOfNodes, get_nearest_node_index, sqDistTo, pyMin, steer, steerRun,
      calc_distance_and_angle, check_collision, calc_dist_to_goal, startNode, endNode,
      Node.x, Node.y, Node.path_x, Node.path_y])

/-- C8: an iteration whose sample lies farther from the goal than the current
sampling radius leaves the planner state (node list and sampling radius)
unchanged, and the loop merely moves on to the remaining iterations, so the
discarded iteration still consumes budget. -/
theorem planStep_discard (g : Geom α) (cfg : RRTCfg α) (s : PState α) (inp : RInput α)
    (rest : List (RInput α))
    (h : EuclideanDistanceOfNodes g (endNode cfg)
        (get_random_node cfg.goalBiased cfg.goal_sample_rate (endNode cfg) inp) >
      s.SamplingRadius) :
    planStep g cfg s inp = .inl s ∧
    planningAux g cfg s (inp :: rest) = planningAux g cfg s rest := by
  have hstep : planStep g cfg s inp = .inl s := by
    simp only [planStep, if_pos h]
  exact ⟨hstep, by rw [planningAux, hstep]⟩

/-- C8 witness: with identity `sqrt`, a sample at `(10, 10)` against goal
`(1, 0)` and radius 5 is discarded. -/
theorem planStep_discard_witness :
    planStep gIdQ cfgQ ⟨[startNode cfgQ], 5⟩ ⟨7, 10, 10⟩ = .inl ⟨[startNode cfgQ], 5⟩ ∧
    planningAux gIdQ cfgQ ⟨[startNode cfgQ], 5⟩ [⟨7, 10, 10⟩] =
      planningAux gIdQ cfgQ ⟨[startNode cfgQ], 5⟩ [] :=
  planStep_discard gIdQ cfgQ ⟨[startNode cfgQ], 5⟩ ⟨7, 10, 10⟩ []
    (by norm_num [EuclideanDistanceOfNodes, get_random_node, gIdQ, cfgQ, endNode,
      Node.x, Node.y])

/-! ### Exhaustion of the iteration budget -/

lemma planningAux_none_iff (g : Geom α) (cfg : RRTCfg α) (l : List (RInput α)) (s : PState α) :
    planningAux g cfg s l = none ↔ ∃ s', runState g cfg s l = some s' := by
  induction l generalizing s with
  | nil => simp [planningAux, runState]
  | cons i r ih =>
    rw [planningAux, runState]
    cases hstep : planStep g cfg s i with
    | inl s1 => simpa using ih s1
    | inr p =>
      obtain ⟨s1, path⟩ := p
      simp

/-- C9: `planning` returns the no-path result `None` exactly when the loop
consumes its whole iteration budget without an iteration returning a path;
in particular exhaustion yields a normal `None` return, and a `None` return
happens in no other way. -/
theorem planning_none_iff_exhausted (g : Geom α) (cfg : RRTCfg α) (rnd : ℕ → RInput α) :
    planning g cfg rnd = none ↔
      ∃ s, runState g cfg (initState g cfg) ((List.range cfg.max_iter).map rnd) = some s :=
  planningAux_none_iff g cfg ((List.range cfg.max_iter).map rnd) (initState g cfg)

/-! ### The tree invariant of the planning loop -/

lemma steer_parent (g : Geom α) (res : α) (f t : Node α) (L : α) :
    (steer g res f t L).parent = some f := rfl

lemma ne_nil_of_head_eq (l : List (Node α)) (a : Node α) (h : l.head? = some a) :
    l ≠ [] := by
  cases l with
  | nil => cases h
  | cons x xs => exact List.cons_ne_nil x xs

lemma mem_of_head_eq (l : List (Node α)) (a : Node α) (h : l.head? = some a) : a ∈ l := by
  cases l with
  | nil => cases h
  | cons x xs =>
    rw [List.head?_cons, Option.some.injEq] at h
    rw [h]
    exact List.mem_cons_self a xs

lemma planStep_nodes (g : Geom α) (cfg : RRTCfg α) (s : PState α) (inp : RInput α) :
    (postState (planStep g cfg s inp)).node_list = s.node_list ∨
    ∃ new : Node α,
      (postState (planStep g cfg s inp)).node_list = s.node_list ++ [new] ∧
      new.parent = some (s.node_list.getD
        (get_nearest_node_index s.node_list
          (get_random_node cfg.goalBiased cfg.goal_sample_rate (endNode cfg) inp))
        (startNode cfg)) := by
  simp only [planStep]
  split_ifs with h1 h2 h3 h4
  · exact Or.inl rfl
  · exact Or.inr ⟨_, rfl, steer_parent g cfg.path_resolution _ _ cfg.expand_dis⟩
  · exact Or.inr ⟨_, rfl, steer_parent g cfg.path_resolution _ _ cfg.expand_dis⟩
  · exact Or.inr ⟨_, rfl, steer_parent g cfg.path_resolution _ _ cfg.expand_dis⟩
  · exact Or.inl rfl

lemma treeInv_append (cfg : RRTCfg α) (nodes : List (Node α)) (new : Node α)
    (hinv : TreeInv cfg nodes)
    (hp : ∃ p, new.parent = some p ∧ p ∈ nodes) :
    TreeInv cfg (nodes ++ [new]) := by
  obtain ⟨hhead, hparents, hmem⟩ := hinv
  have hne : nodes ≠ [] := ne_nil_of_head_eq nodes (startNode cfg) hhead
  have hpos : 0 < nodes.length := List.length_pos.mpr hne
  refine ⟨?_, ?_, ?_⟩
  · rw [List.head?_append_of_ne_nil nodes hne]
    exact hhead
  · intro i h
    by_cases hi : i < nodes.length
    · rw [List.getElem_append_left hi]
      exact hparents i hi
    · have hieq : i = nodes.length := by
        rw [List.length_append, List.length_singleton] at h
        omega
      rw [List.getElem_concat_length nodes new i hieq]
      obtain ⟨p, hpar, _⟩ := hp
      rw [hpar]
      constructor
      · intro hcon
        cases hcon
      · intro hcon
        omega
  · intro i h hposi
    by_cases hi : i < nodes.length
    · obtain ⟨p, hpar, hmem'⟩ := hmem i hi hposi
      refine ⟨p, ?_, ?_⟩
      · rw [List.getElem_append_left hi]
        exact hpar
      · rw [List.take_append_of_le_length (le_of_lt hi)]
        exact hmem'
    · have hieq : i = nodes.length := by
        rw [List.length_append, List.length_singleton] at h
        omega
      obtain ⟨p, hpar, hmem'⟩ := hp
      refine ⟨p, ?_, ?_⟩
      · rw [List.getElem_concat_length nodes new i hieq]
        exact hpar
      · rw [hieq, List.take_left]
        exact hmem'

lemma planStep_treeInv (g : Geom α) (cfg : RRTCfg α) (s : PState α) (inp : RInput α)
    (hinv : TreeInv cfg s.node_list) :
    TreeInv cfg (postState (planStep g cfg s inp)).node_list := by
  rcases planStep_nodes g cfg s inp with h | ⟨new, hnodes, hpar⟩
  · rw [h]
    exact hinv
  · rw [hnodes]
    have hne : s.node_list ≠ [] := ne_nil_of_head_eq _ _ hinv.1
    have hlt := get_nearest_node_index_lt_length s.node_list
      (get_random_node cfg.goalBiased cfg.goal_sample_rate (endNode cfg) inp) hne
    refine treeInv_append cfg s.node_list new hinv ⟨_, hpar, ?_⟩
    rw [List.getD_eq_getElem s.node_list (startNode cfg) hlt]
    exact List.getElem_mem hlt

lemma initState_treeInv (g : Geom α) (cfg : RRTCfg α) :
    TreeInv cfg (initState g cfg).node_list := by
  refine ⟨rfl, ?_, ?_⟩
  · intro i h
    have : i = 0 := by
      simp only [initState, List.length_singleton] at h
      omega
    subst this
    simp [initState, startNode, Node.parent]
  · intro i h hposi
    simp only [initState, List.length_singleton] at h
    omega

/-- C7: throughout every run of the planning loop the node list satisfies the
tree invariant — index 0 holds the parentless start node, every other node
has a parent that was already in the list when the node was appended — and
each iteration only ever appends to the node list (the previous list is a
prefix of the next), so parent links always point strictly backwards. -/
theorem planning_tree_invariant (g : Geom α) (cfg : RRTCfg α) (inputs : List (RInput α)) :
    TreeInv cfg (runStateFull g cfg (initState g cfg) inputs).node_list ∧
    ∀ s : PState α, ∀ inp : RInput α,
      s.node_list <+: (postState (planStep g cfg s inp)).node_list := by
  constructor
  · have main : ∀ (l : List (RInput α)) (s : PState α), TreeInv cfg s.node_list →
        TreeInv cfg (runStateFull g cfg s l).node_list := by
      intro l
      induction l with
      | nil => exact fun s hs => hs
      | cons i r ih =>
        intro s hs
        rw [runStateFull]
        cases hstep : planStep g cfg s i with
        | inl s1 =>
          have hpres := planStep_treeInv g cfg s i hs
          rw [hstep] at hpres
          exact ih s1 hpres
        | inr p =>
          obtain ⟨s1, path⟩ := p
          have hpres := planStep_treeInv g cfg s i hs
          rw [hstep] at hpres
          exact hpres
    exact main inputs _ (initState_treeInv g cfg)
  · intro s inp
    rcases planStep_nodes g cfg s inp with h | ⟨new, hnodes, _⟩
    · rw [h]
    · rw [hnodes]
      exact List.prefix_append s.node_list [new]

/-! ### The extracted path -/

lemma getLast?_cons_of_ne_nil {β : Type} (a : β) (l : List β) (h : l ≠ []) :
    (a :: l).getLast? = l.getLast? := by
  cases l with
  | nil => exact absurd rfl h
  | cons b t => exact List.getLast?_cons_cons

lemma walkCourse_ne_nil (n : Node α) : walkCourse n ≠ [] := by
  cases n with
  | mk x y px py p =>
    cases p with
    | none => simp [walkCourse]
    | some q => simp [walkCourse]

lemma chainRoot_of_parent (n p : Node α) (h : n.parent = some p) :
    chainRoot n = chainRoot p := by
  cases n with
  | mk x y px py par =>
    cases par with
    | none => cases h
    | some q =>
      rw [Node.parent, Option.some.injEq] at h
      rw [h]
      simp [chainRoot]

lemma walkCourse_last (n : Node α) :
    (walkCourse n).getLast? = some ((chainRoot n).x, (chainRoot n).y) := by
  cases n with
  | mk x y px py p =>
    cases p with
    | none => simp [walkCourse, chainRoot, Node.x, Node.y]
    | some q =>
      have hq := walkCourse_last q
      have hw : walkCourse (Node.mk x y px py (some q)) = (x, y) :: walkCourse q := by
        simp [walkCourse]
      have hc : chainRoot (Node.mk x y px py (some q)) = chainRoot q := by
        simp [chainRoot]
      rw [hw, getLast?_cons_of_ne_nil _ _ (walkCourse_ne_nil q), hq, hc]

lemma planStep_inr (g : Geom α) (cfg : RRTCfg α) (s : PState α) (inp : RInput α)
    (s' : PState α) (path : List (α × α))
    (h : planStep g cfg s inp = .inr (s', path)) :
    ∃ new : Node α,
      new.parent = some (s.node_list.getD
        (get_nearest_node_index s.node_list
          (get_random_node cfg.goalBiased cfg.goal_sample_rate (endNode cfg) inp))
        (startNode cfg)) ∧
      path = generate_final_course (endNode cfg) (s.node_list ++ [new])
        ((s.node_list ++ [new]).length - 1) := by
  simp only [planStep] at h
  split_ifs at h with h1 h2 h3 h4
  · rw [Sum.inr.injEq, Prod.mk.injEq] at h
    obtain ⟨_, hpath⟩ := h
    exact ⟨steer g cfg.path_resolution _ _ cfg.expand_dis,
      steer_parent g cfg.path_resolution _ _ cfg.expand_dis, hpath.symm⟩

lemma planningAux_success (g : Geom α) (cfg : RRTCfg α) (s : PState α)
    (l : List (RInput α)) (path : List (α × α))
    (hroot : ∀ n ∈ s.node_list, chainRoot n = startNode cfg)
    (hne : s.node_list ≠ [])
    (hsucc : planningAux g cfg s l = some path) :
    path.head? = some (cfg.gx, cfg.gy) ∧ path.getLast? = some (cfg.sx, cfg.sy) := by
  induction l generalizing s with
  | nil => simp [planningAux] at hsucc
  | cons i r ih =>
    rw [planningAux] at hsucc
    cases hstep : planStep g cfg s i with
    | inl s1 =>
      rw [hstep] at hsucc
      have hn := planStep_nodes g cfg s i
      rw [hstep] at hn
      simp only [postState] at hn
      refine ih s1 ?_ ?_ hsucc
      · rcases hn with hsame | ⟨new, happ, hpar⟩
        · intro m hm
          rw [hsame] at hm
          exact hroot m hm
        · intro m hm
          rw [happ] at hm
          rcases List.mem_append.mp hm with hold | hnew
          · exact hroot m hold
          · rw [List.mem_singleton] at hnew
            subst hnew
            have hlt := get_nearest_node_index_lt_length s.node_list
              (get_random_node cfg.goalBiased cfg.goal_sample_rate (endNode cfg) i) hne
            rw [chainRoot_of_parent m _ hpar]
            apply hroot
            rw [List.getD_eq_getElem s.node_list (startNode cfg) hlt]
            exact List.getElem_mem hlt
      · rcases hn with hsame | ⟨new, happ, _⟩
        · rw [hsame]
          exact hne
        · rw [happ]
          simp
    | inr p =>
      obtain ⟨s1, path'⟩ := p
      rw [hstep] at hsucc
      rw [Option.some.injEq] at hsucc
      subst hsucc
      obtain ⟨new, hpar, hpath⟩ := planStep_inr g cfg s i s1 path' hstep
      rw [hpath]
      constructor
      · simp [generate_final_course, endNode, Node.x, Node.y]
      · have hget : (s.node_list ++ [new]).getD ((s.node_list ++ [new]).length - 1)
            (endNode cfg) = new := by
          have hlen : (s.node_list ++ [new]).length - 1 = s.node_list.length := by simp
          rw [hlen, List.getD_eq_getElem _ _ (by simp),
            List.getElem_concat_length s.node_list new _ rfl]
        simp only [generate_final_course, hget]
        rw [getLast?_cons_of_ne_nil _ _ (walkCourse_ne_nil new), walkCourse_last new]
        have hlt := get_nearest_node_index_lt_length s.node_list
          (get_random_node cfg.goalBiased cfg.goal_sample_rate (endNode cfg) i) hne
        have hroot' : chainRoot new = startNode cfg := by
          rw [chainRoot_of_parent new _ hpar]
          apply hroot
          rw [List.getD_eq_getElem s.node_list (startNode cfg) hlt]
          exact List.getElem_mem hlt
        rw [hroot']
        simp [startNode, Node.x, Node.y]

/-- C1: every successful planning run returns a path whose first element is
exactly the goal coordinates and whose last element is exactly the start
coordinates. -/
theorem planning_path_endpoints (g : Geom α) (cfg : RRTCfg α) (rnd : ℕ → RInput α)
    (path : List (α × α)) (h : planning g cfg rnd = some path) :
    path.head? = some (cfg.gx, cfg.gy) ∧ path.getLast? = some (cfg.sx, cfg.sy) := by
  refine planningAux_success g cfg (initState g cfg) _ path ?_ ?_ h
  · intro n hn
    rw [initState, List.mem_singleton] at hn
    rw [hn]
    simp [startNode, chainRoot]
  · rw [initState]
    simp

/-- C1 witness: a one-iteration run over `ℚ` that succeeds and returns the
path `[(1, 0), (0, 0), (0, 0)]` from goal `(1, 0)` back to start `(0, 0)`. -/
theorem planning_path_endpoints_witness :
    ([((1 : ℚ), (0 : ℚ)), (0, 0), (0, 0)] : List (ℚ × ℚ)).head? = some (cfgQ.gx, cfgQ.gy) ∧
    ([((1 : ℚ), (0 : ℚ)), (0, 0), (0, 0)] : List (ℚ × ℚ)).getLast? = some (cfgQ.sx, cfgQ.sy) :=
  planning_path_endpoints gQ cfgQ (fun _ => ⟨0, 0, 0⟩) [(1, 0), (0, 0), (0, 0)]
    (by norm_num [planning, planningAux, planStep, initState, startNode, endNode, gQ, cfgQ,
      get_random_node, EuclideanDistanceOfNodes, get_nearest_node_index, sqDistTo,
      pyMin, steer, steerRun, calc_distance_and_angle, check_collision, calc_dist_to_goal,
      generate_final_course, walkCourse, Node.x, Node.y, Node.path_x, Node.path_y,
      Node.parent])

/-! ### Metric facts about the steering extension -/

lemma if_gt_eq_min (L d : α) : (if L > d then d else L) = min L d := by
  split_ifs with h
  · exact (min_eq_right h.le).symm
  · exact (min_eq_left (not_lt.mp h)).symm

lemma steerRun_pos (res cθ sθ : α) (n : ℕ) (st : SteerSt α) :
    (steerRun res cθ sθ n st).x = st.x + (n : α) * (res * cθ) ∧
    (steerRun res cθ sθ n st).y = st.y + (n : α) * (res * sθ) := by
  induction n generalizing st with
  | zero => simp [steerRun]
  | succ k ih =>
    simp only [steerRun]
    obtain ⟨hx, hy⟩ := ih ⟨st.x + res * cθ, st.y + res * sθ,
      st.px ++ [st.x + res * cθ], st.py ++ [st.y + res * sθ]⟩
    refine ⟨?_, ?_⟩
    · rw [hx]
      push_cast
      ring
    · rw [hy]
      push_cast
      ring

lemma steerRun_head (res cθ sθ : α) (n : ℕ) (st : SteerSt α)
    (hx : st.px ≠ []) (hy : st.py ≠ []) :
    (steerRun res cθ sθ n st).px.head? = st.px.head? ∧
    (steerRun res cθ sθ n st).py.head? = st.py.head? ∧
    (steerRun res cθ sθ n st).px ≠ [] ∧
    (steerRun res cθ sθ n st).py ≠ [] := by
  induction n generalizing st with
  | zero => exact ⟨rfl, rfl, hx, hy⟩
  | succ k ih =>
    simp only [steerRun]
    obtain ⟨h1, h2, h3, h4⟩ := ih ⟨st.x + res * cθ, st.y + res * sθ,
      st.px ++ [st.x + res * cθ], st.py ++ [st.y + res * sθ]⟩ (by simp) (by simp)
    refine ⟨?_, ?_, h3, h4⟩
    · rw [h1]
      exact List.head?_append_of_ne_nil st.px hx
    · rw [h2]
      exact List.head?_append_of_ne_nil st.py hy

lemma steer_x (g : Geom α) (res : α) (f t : Node α) (L : α) :
    (steer g res f t L).x = f.x +
      ((⌊min L (calc_distance_and_angle g f t).1 / res⌋).toNat : α) *
        (res * g.cos (calc_distance_and_angle g f t).2) := by
  simp only [steer, if_gt_eq_min, Node.x]
  exact (steerRun_pos res (g.cos (calc_distance_and_angle g f t).2)
    (g.sin (calc_distance_and_angle g f t).2)
    (⌊min L (calc_distance_and_angle g f t).1 / res⌋).toNat
    ⟨f.x, f.y, [f.x], [f.y]⟩).1

lemma steer_y (g : Geom α) (res : α) (f t : Node α) (L : α) :
    (steer g res f t L).y = f.y +
      ((⌊min L (calc_distance_and_angle g f t).1 / res⌋).toNat : α) *
        (res * g.sin (calc_distance_and_angle g f t).2) := by
  simp only [steer, if_gt_eq_min, Node.y]
  exact (steerRun_pos res (g.cos (calc_distance_and_angle g f t).2)
    (g.sin (calc_distance_and_angle g f t).2)
    (⌊min L (calc_distance_and_angle g f t).1 / res⌋).toNat
    ⟨f.x, f.y, [f.x], [f.y]⟩).2

lemma steer_px_head (g : Geom α) (res : α) (f t : Node α) (L : α) :
    (steer g res f t L).path_x.head? = some f.x := by
  simp only [steer, if_gt_eq_min, Node.path_x]
  obtain ⟨h1, _, h3, _⟩ := steerRun_head res (g.cos (calc_distance_and_angle g f t).2)
    (g.sin (calc_distance_and_angle g f t).2)
    (⌊min L (calc_distance_and_angle g f t).1 / res⌋).toNat
    ⟨f.x, f.y, [f.x], [f.y]⟩ (by simp) (by simp)
  split_ifs
  · rw [List.head?_append_of_ne_nil _ h3, h1]
    rfl
  · rw [h1]
    rfl

lemma steer_py_head (g : Geom α) (res : α) (f t : Node α) (L : α) :
    (steer g res f t L).path_y.head? = some f.y := by
  simp only [steer, if_gt_eq_min, Node.path_y]
  obtain ⟨_, h2, _, h4⟩ := steerRun_head res (g.cos (calc_distance_and_angle g f t).2)
    (g.sin (calc_distance_and_angle g f t).2)
    (⌊min L (calc_distance_and_angle g f t).1 / res⌋).toNat
    ⟨f.x, f.y, [f.x], [f.y]⟩ (by simp) (by simp)
  split_ifs
  · rw [List.head?_append_of_ne_nil _ h4, h2]
    rfl
  · rw [h2]
    rfl

/-- C10: a steered node lies at Euclidean distance exactly
`floor(min(extend, d) / pathResolution) * pathResolution` from the node it
was steered from (`d` the distance to the target sample), hence within the
extension bound, and its recorded path starts at the position of that
node, which is recorded as its parent.  Stated over `ℝ` with the analytic
facts about the library functions as hypotheses. -/
theorem steer_extension (g : Geom ℝ) (from_node to_node : Node ℝ) (L res : ℝ)
    (hres : 0 < res) (hL : 0 ≤ L)
    (hcs : ∀ t : ℝ, g.cos t ^ 2 + g.sin t ^ 2 = 1)
    (hhyp : ∀ x y : ℝ, g.hypot x y = Real.sqrt (x ^ 2 + y ^ 2))
    (hsqrt : ∀ x : ℝ, g.sqrt x = Real.sqrt x) :
    EuclideanDistanceOfNodes g from_node (steer g res from_node to_node L) =
      ⌊min L (calc_distance_and_angle g from_node to_node).1 / res⌋ * res ∧
    EuclideanDistanceOfNodes g from_node (steer g res from_node to_node L) ≤ L ∧
    (steer g res from_node to_node L).path_x.head? = some from_node.x ∧
    (steer g res from_node to_node L).path_y.head? = some from_node.y ∧
    (steer g res from_node to_node L).parent = some from_node := by
  have hd0 : 0 ≤ (calc_distance_and_angle g from_node to_node).1 := by
    have : (calc_distance_and_angle g from_node to_node).1 =
        g.hypot (to_node.x - from_node.x) (to_node.y - from_node.y) := rfl
    rw [this, hhyp]
    exact Real.sqrt_nonneg _
  have he0 : 0 ≤ min L (calc_distance_and_angle g from_node to_node).1 := le_min hL hd0
  have hfl0 : 0 ≤ ⌊min L (calc_distance_and_angle g from_node to_node).1 / res⌋ :=
    Int.floor_nonneg.mpr (div_nonneg he0 hres.le)
  have hcast : (((⌊min L (calc_distance_and_angle g from_node to_node).1 / res⌋).toNat : ℕ) : ℝ)
      = ((⌊min L (calc_distance_and_angle g from_node to_node).1 / res⌋ : ℤ) : ℝ) := by
    exact_mod_cast congrArg (Int.cast : ℤ → ℝ) (Int.toNat_of_nonneg hfl0)
  have hdist : EuclideanDistanceOfNodes g from_node (steer g res from_node to_node L) =
      ⌊min L (calc_distance_and_angle g from_node to_node).1 / res⌋ * res := by
    rw [EuclideanDistanceOfNodes, hsqrt, steer_x, steer_y]
    have hsq : (from_node.y +
          ((⌊min L (calc_distance_and_angle g from_node to_node).1 / res⌋).toNat : ℝ) *
            (res * g.sin (calc_distance_and_angle g from_node to_node).2) - from_node.y) ^ 2 +
        (from_node.x +
          ((⌊min L (calc_distance_and_angle g from_node to_node).1 / res⌋).toNat : ℝ) *
            (res * g.cos (calc_distance_and_angle g from_node to_node).2) - from_node.x) ^ 2 =
        (((⌊min L (calc_distance_and_angle g from_node to_node).1 / res⌋).toNat : ℝ) * res) ^ 2 *
          (g.cos (calc_distance_and_angle g from_node to_node).2 ^ 2 +
            g.sin (calc_distance_and_angle g from_node to_node).2 ^ 2) := by
      ring
    rw [hsq, hcs, mul_one, Real.sqrt_sq (by positivity), hcast]
  refine ⟨hdist, ?_, steer_px_head g res from_node to_node L,
    steer_py_head g res from_node to_node L, rfl⟩
  rw [hdist]
  have h1 : (⌊min L (calc_distance_and_angle g from_node to_node).1 / res⌋ : ℝ) * res ≤
      (min L (calc_distance_and_angle g from_node to_node).1 / res) * res :=
    mul_le_mul_of_nonneg_right (Int.floor_le _) hres.le
  rw [div_mul_cancel₀ _ (ne_of_gt hres)] at h1
  exact le_trans h1 (min_le_left _ _)

/-- C10 witness: steering from the origin toward `(2, 0)` with extension
bound 1 and resolution 1, with the real library functions. -/
theorem steer_extension_witness :
    EuclideanDistanceOfNodes
        ⟨Real.sqrt, fun x y => Real.sqrt (x ^ 2 + y ^ 2), Real.cos, Real.sin,
          fun y x => Real.arctan (y / x)⟩
        (Node.mk 0 0 [] [] none)
        (steer ⟨Real.sqrt, fun x y => Real.sqrt (x ^ 2 + y ^ 2), Real.cos, Real.sin,
          fun y x => Real.arctan (y / x)⟩ 1 (Node.mk 0 0 [] [] none)
          (Node.mk 2 0 [] [] none) 1) =
      ⌊min 1 ((calc_distance_and_angle
        ⟨Real.sqrt, fun x y => Real.sqrt (x ^ 2 + y ^ 2), Real.cos, Real.sin,
          fun y x => Real.arctan (y / x)⟩
        (Node.mk 0 0 [] [] none) (Node.mk 2 0 [] [] none)).1) / 1⌋ * 1 ∧
    EuclideanDistanceOfNodes
        ⟨Real.sqrt, fun x y => Real.sqrt (x ^ 2 + y ^ 2), Real.cos, Real.sin,
          fun y x => Real.arctan (y / x)⟩
        (Node.mk 0 0 [] [] none)
        (steer ⟨Real.sqrt, fun x y => Real.sqrt (x ^ 2 + y ^ 2), Real.cos, Real.sin,
          fun y x => Real.arctan (y / x)⟩ 1 (Node.mk 0 0 [] [] none)
          (Node.mk 2 0 [] [] none) 1) ≤ 1 ∧
    (steer ⟨Real.sqrt, fun x y => Real.sqrt (x ^ 2 + y ^ 2), Real.cos, Real.sin,
        fun y x => Real.arctan (y / x)⟩ 1 (Node.mk 0 0 [] [] none)
        (Node.mk 2 0 [] [] none) 1).path_x.head? = some (Node.mk (0:ℝ) 0 [] [] none).x ∧
    (steer ⟨Real.sqrt, fun x y => Real.sqrt (x ^ 2 + y ^ 2), Real.cos, Real.sin,
        fun y x => Real.arctan (y / x)⟩ 1 (Node.mk 0 0 [] [] none)
        (Node.mk 2 0 [] [] none) 1).path_y.head? = some (Node.mk (0:ℝ) 0 [] [] none).y ∧
    (steer ⟨Real.sqrt, fun x y => Real.sqrt (x ^ 2 + y ^ 2), Real.cos, Real.sin,
        fun y x => Real.arctan (y / x)⟩ 1 (Node.mk 0 0 [] [] none)
        (Node.mk 2 0 [] [] none) 1).parent = some (Node.mk (0:ℝ) 0 [] [] none) :=
  steer_extension
    ⟨Real.sqrt, fun x y => Real.sqrt (x ^ 2 + y ^ 2), Real.cos, Real.sin,
      fun y x => Real.arctan (y / x)⟩
    (Node.mk 0 0 [] [] none) (Node.mk 2 0 [] [] none) 1 1
    (by norm_num) (by norm_num)
    (fun t => Real.cos_sq_add_sin_sq t)
    (fun x y => rfl) (fun x => rfl)

end RRTDemo
